import Mathlib

set_option maxHeartbeats 1000000
set_option linter.unnecessarySeqFocus false

namespace Huffman

/-- Huffman tree node: a leaf carries a character and its frequency; an
internal node carries the summed frequency and two children (as produced by
merging in build_huffman_tree). -/
inductive Node where
  | leaf (char : Char) (freq : Nat)
  | internal (freq : Nat) (left : Node) (right : Node)
deriving Repr

/-- Frequency of a node (the Python Node.freq attribute; comparison in the
heap uses only this, mirroring Node.__lt__). -/
def Node.freq : Node → Nat
  | .leaf _ f => f
  | .internal f _ _ => f

/-- Characters sitting at the leaves of a tree, left to right. -/
def Node.leafChars : Node → List Char
  | .leaf c _ => [c]
  | .internal _ l r => l.leafChars ++ r.leafChars

/-- Default node used for out-of-range list reads (never reached on the
in-range executions modelled here). -/
def dNode : Node := .leaf 'a' 0

/-- Loop of CPython heapq._siftdown: move the hole at pos up towards
startpos while newitem is strictly smaller than the parent. Fuel equals the
initial pos, which bounds the number of iterations exactly, so the fueled
loop computes the same result as the unbounded one. -/
def siftdownGo (startpos : Nat) (newitem : Node) : Nat → List Node → Nat → List Node × Nat
  | 0, heap, pos => (heap, pos)
  | fuel + 1, heap, pos =>
    if startpos < pos then
      let parentpos := (pos - 1) / 2
      let parent := heap.getD parentpos dNode
      if newitem.freq < parent.freq then
        siftdownGo startpos newitem fuel (heap.set pos parent) parentpos
      else (heap, pos)
    else (heap, pos)

/-- CPython heapq._siftdown(heap, startpos, pos). -/
def siftdown (heap : List Node) (startpos pos : Nat) : List Node :=
  let newitem := heap.getD pos dNode
  let hp := siftdownGo startpos newitem pos heap pos
  hp.1.set hp.2 newitem

/-- Loop of CPython heapq._siftup: bubble the smaller child up into the hole
until reaching a leaf position. pos at least doubles every iteration and the
loop runs only while 2*pos+1 < length, so fuel = length is never exhausted. -/
def siftupGo : Nat → List Node → Nat → List Node × Nat
  | 0, heap, pos => (heap, pos)
  | fuel + 1, heap, pos =>
    let endpos := heap.length
    let childpos := 2 * pos + 1
    if childpos < endpos then
      let childpos2 :=
        if childpos + 1 < endpos ∧ ¬ (heap.getD childpos dNode).freq < (heap.getD (childpos + 1) dNode).freq
        then childpos + 1 else childpos
      siftupGo fuel (heap.set pos (heap.getD childpos2 dNode)) childpos2
    else (heap, pos)

/-- CPython heapq._siftup(heap, pos): run the bubble loop, put newitem into
the final hole, then sift it down towards the original position. -/
def siftup (heap : List Node) (pos : Nat) : List Node :=
  let newitem := heap.getD pos dNode
  let hp := siftupGo heap.length heap pos
  siftdown (hp.1.set hp.2 newitem) pos hp.2

/-- Descending loop of CPython heapq.heapify: siftup at indices
n/2 - 1, ..., 1, 0. -/
def heapifyGo : Nat → List Node → List Node
  | 0, heap => heap
  | i + 1, heap => heapifyGo i (siftup heap i)

/-- CPython heapq.heapify. -/
def heapify (heap : List Node) : List Node := heapifyGo (heap.length / 2) heap

/-- CPython heapq.heappush: append, then sift the new last element down
towards the root. -/
def heappush (heap : List Node) (item : Node) : List Node :=
  siftdown (heap ++ [item]) 0 heap.length

/-- CPython heapq.heappop: pop the last element; if the heap is still
non-empty, take the root as result, move the last element to the root and
siftup. Returns none on an empty heap (Python would raise IndexError). -/
def heappop : List Node → Option (Node × List Node)
  | [] => none
  | x :: xs =>
    let lastelt := (x :: xs).getLast (List.cons_ne_nil x xs)
    match (x :: xs).dropLast with
    | [] => some (lastelt, [])
    | y :: ys => some (y, siftup ((y :: ys).set 0 lastelt) 0)

/-- The while-loop of build_huffman_tree: pop the two smallest nodes, merge
them into an internal node, push the merge back; stop when at most one node
remains and return heap[0] if heap else None. Each iteration shrinks the
heap by one, so fuel = initial length is never exhausted. -/
def mergeLoop : Nat → List Node → Option Node
  | 0, heap => heap.head?
  | fuel + 1, heap =>
    if 1 < heap.length then
      match heappop heap with
      | some (left, h1) =>
        match heappop h1 with
        | some (right, h2) =>
          mergeLoop fuel (heappush h2 (.internal (left.freq + right.freq) left right))
        | none => none
      | none => none
    else heap.head?

/-- build_huffman_tree(freq_table): one leaf per (char, freq) item in
iteration order, heapify, then merge until one node remains. -/
def build_huffman_tree (freq_table : List (Char × Nat)) : Option Node :=
  let heap := heapify (freq_table.map fun p => Node.leaf p.1 p.2)
  mergeLoop heap.length heap

/-- One step of collections.Counter: bump the count of c if present
(keeping its position, as Python dicts do), else append (c, 1). -/
def counterAdd (m : List (Char × Nat)) (c : Char) : List (Char × Nat) :=
  if m.any fun p => p.1 == c then
    m.map fun p => if p.1 = c then (p.1, p.2 + 1) else p
  else m ++ [(c, 1)]

/-- build_frequency_table(text) = Counter(text): counts per character, keys
in first-occurrence order (Python dicts preserve insertion order). -/
def build_frequency_table (text : List Char) : List (Char × Nat) :=
  text.foldl counterAdd []

/-- Python dict assignment d[k] = v on an insertion-ordered association
list: overwrite in place if the key exists, else append. -/
def dictInsert (tbl : List (Char × List Bool)) (k : Char) (v : List Bool) : List (Char × List Bool) :=
  if tbl.any fun p => p.1 == k then
    tbl.map fun p => if p.1 = k then (k, v) else p
  else tbl ++ [(k, v)]

/-- generate_codes(node, current_code, code_table): depth-first traversal
assigning each leaf its root path ("0" when the path is empty, i.e. the
current_code or "0" fallback); bit "0" is modelled as false, "1" as true. -/
def generate_codes : Node → List Bool → List (Char × List Bool) → List (Char × List Bool)
  | .leaf c _, current_code, code_table =>
    dictInsert code_table c (if current_code = [] then [false] else current_code)
  | .internal _ l r, current_code, code_table =>
    generate_codes r (current_code ++ [true]) (generate_codes l (current_code ++ [false]) code_table)

/-- Top-level generate_codes call on the optional tree root: a missing tree
yields the empty table. -/
def generate_codes_top : Option Node → List (Char × List Bool)
  | none => []
  | some n => generate_codes n [] []

/-- Python dict lookup code_table[char], as an Option: the value of the
first (and, with distinct keys, only) entry whose key matches. -/
def lookupTable (tbl : List (Char × List Bool)) (c : Char) : Option (List Bool) :=
  (tbl.find? fun p => p.1 == c).map Prod.snd

/-- encode_text(text, code_table): concatenate the code of every character;
none models the KeyError on a missing character. -/
def encode_text : List Char → List (Char × List Bool) → Option (List Bool)
  | [], _ => some []
  | c :: cs, tbl =>
    match lookupTable tbl c, encode_text cs tbl with
    | some v, some rest => some (v ++ rest)
    | _, _ => none

/-- pad_encoded_text: append zero bits up to a multiple of 8 and return the
number of bits added (0 when already a multiple of 8). -/
def pad_encoded_text (encoded_text : List Bool) : List Bool × Nat :=
  let extra_padding := if 8 - encoded_text.length % 8 = 8 then 0 else 8 - encoded_text.length % 8
  (encoded_text ++ List.replicate extra_padding false, extra_padding)

/-- int(s, 2) on a bit string: most-significant bit first. -/
def bitsToNat (bits : List Bool) : Nat :=
  bits.foldl (fun acc b => 2 * acc + (if b then 1 else 0)) 0

/-- Loop of get_byte_array: consume 8 bits at a time. Fuel = length bounds
the iteration count, so it is never exhausted. -/
def get_byte_array_go : Nat → List Bool → List Nat
  | _, [] => []
  | 0, _ => []
  | fuel + 1, bs => bitsToNat (bs.take 8) :: get_byte_array_go fuel (bs.drop 8)

/-- get_byte_array(padded_encoded_text): the byte values int(chunk, 2) of
the successive 8-bit chunks. -/
def get_byte_array (padded : List Bool) : List Nat :=
  get_byte_array_go padded.length padded

/-- Binary digits of n, most-significant first, no leading zeros, with
bin(0) giving "0": models Python bin(n)[2:]. Fuel = n is never exhausted
since the argument at least halves. -/
def natToBinGo : Nat → Nat → List Bool
  | _, 0 => [false]
  | _, 1 => [true]
  | 0, _ => []
  | fuel + 1, n => natToBinGo fuel (n / 2) ++ [n % 2 == 1]

/-- bin(n)[2:] as a bit list. -/
def natToBin (n : Nat) : List Bool := natToBinGo n n

/-- bin(byte)[2:].rjust(8, '0'): left-pad the binary digits with zeros to
width 8 (no-op if already 8 or longer). -/
def byteToBits (b : Nat) : List Bool :=
  List.replicate (8 - (natToBin b).length) false ++ natToBin b

/-- The "".join over all payload bytes in decompress_file line 179. -/
def bits_of_bytes (payload : List Nat) : List Bool :=
  payload.flatMap byteToBits

/-- Padding removal of decompress_file lines 182-183: bit_string[:-extra]
when extra > 0 (Python slicing: empty result when extra exceeds the
length). -/
def remove_padding (bits : List Bool) (extra_padding : Nat) : List Bool :=
  if 0 < extra_padding then bits.take (bits.length - extra_padding) else bits

/-- The decoding walk of decompress_file lines 186-192: step left on bit
"0" (false) and right on "1" (true); emit the character and reset to the
root upon reaching a leaf. Stepping from a leaf reads a None child and then
dereferences it (AttributeError), modelled as none. The loop simply stops
when the bits run out, with no at-root check. -/
def tree_walk (root : Node) : List Bool → Node → Option (List Char)
  | [], _ => some []
  | _ :: _, .leaf _ _ => none
  | b :: bs, .internal _ l r =>
    match (if b = false then l else r) with
    | .leaf c _ => (tree_walk root bs root).map fun ds => c :: ds
    | .internal f2 l2 r2 => tree_walk root bs (.internal f2 l2 r2)

/-- The self-describing container: header frequency table (in serialized
key order), header padding count, and the packed payload bytes. -/
structure Container where
  freq : List (Char × Nat)
  padding : Nat
  payload : List Nat
deriving DecidableEq, Repr

/-- Outcome of compress_file after the input text has been read:
emptyInputWarning is the "Input file is empty!" warning (no file written),
ok is a successfully written container, pyError an uncaught exception. -/
inductive CompressResult where
  | emptyInputWarning
  | ok (cont : Container)
  | pyError
deriving DecidableEq, Repr

/-- Outcome of decompress_file after the container has been parsed:
emptyPayloadWarning is the "Compressed file is empty!" warning (no file
written), ok is a successfully written recovered text, pyError an uncaught
exception (the AttributeError of the walk). -/
inductive DecompressResult where
  | emptyPayloadWarning
  | ok (text : List Char)
  | pyError
deriving DecidableEq, Repr

/-- compress_file's codec steps (lines 114-142): empty-input check, then
frequency table, tree, code table, encoding, padding, packing, container. -/
def compress_file (text : List Char) : CompressResult :=
  if text = [] then .emptyInputWarning
  else
    let freq_table := build_frequency_table text
    let huffman_tree := build_huffman_tree freq_table
    let code_table := generate_codes_top huffman_tree
    match encode_text text code_table with
    | none => .pyError
    | some encoded_text =>
      let pe := pad_encoded_text encoded_text
      .ok ⟨freq_table, pe.2, get_byte_array pe.1⟩

/-- decompress_file's codec steps (lines 171-192): empty-payload check,
tree rebuild from the header frequency table, bit expansion, padding
removal, decoding walk. An empty bit string leaves decoded_text empty even
when the tree is absent; a non-empty bit string with an absent tree or a
walk off a leaf raises (pyError). -/
def decompress_file (cont : Container) : DecompressResult :=
  if cont.payload = [] then .emptyPayloadWarning
  else
    let huffman_tree := build_huffman_tree cont.freq
    let bit_string := remove_padding (bits_of_bytes cont.payload) cont.padding
    match huffman_tree with
    | none => if bit_string = [] then .ok [] else .pyError
    | some root =>
      match tree_walk root bit_string root with
      | some txt => .ok txt
      | none => .pyError

/-- Setting an index to the value it already holds is the identity. -/
lemma set_getD_self {α : Type} (d : α) : ∀ (l : List α) (i : Nat), i < l.length → l.set i (l.getD i d) = l
  | [], i, h => by simp at h
  | x :: t, 0, _ => by simp
  | x :: t, i + 1, h => by
    simp only [List.getD_cons_succ, List.set_cons_succ]
    exact congrArg (x :: ·) (set_getD_self d t i (by simpa using h))

/-- Pulling the overwritten element out in front of a set is a permutation
of putting the new element in front of the original list. -/
lemma getD_set_perm {α : Type} (d : α) : ∀ (l : List α) (j : Nat) (v : α), j < l.length →
    List.Perm (l.getD j d :: l.set j v) (v :: l)
  | [], j, v, h => by simp at h
  | x :: t, 0, v, _ => by simpa using List.Perm.swap v x t
  | x :: t, j + 1, v, h => by
    simp only [List.getD_cons_succ, List.set_cons_succ]
    refine (List.Perm.swap x (t.getD j d) (t.set j v)).trans ?_
    refine (List.Perm.cons x (getD_set_perm d t j v (by simpa using h))).trans ?_
    exact List.Perm.swap v x t

/-- Swapping which of two prepended values goes in front and which goes
into position i is a permutation. -/
lemma cons_set_swap_perm {α : Type} : ∀ (l : List α) (i : Nat) (a b : α), i < l.length →
    List.Perm (a :: l.set i b) (b :: l.set i a)
  | [], i, _, _, h => by simp at h
  | x :: t, 0, a, b, _ => by simpa using List.Perm.swap b a t
  | x :: t, i + 1, a, b, h => by
    simp only [List.set_cons_succ]
    refine (List.Perm.swap x a (t.set i b)).trans ?_
    refine (List.Perm.cons x (cons_set_swap_perm t i a b (by simpa using h))).trans ?_
    exact List.Perm.swap b x (t.set i a)

/-- Moving a hole: copying position j into position i and then refilling
position j permutes to refilling position i directly. -/
lemma hole_move_perm {α : Type} (d : α) : ∀ (l : List α) (i j : Nat) (v : α),
    i < l.length → j < l.length → i ≠ j →
    List.Perm ((l.set i (l.getD j d)).set j v) (l.set i v)
  | [], _, _, _, hi, _, _ => by simp at hi
  | x :: t, 0, 0, _, _, _, hij => absurd rfl hij
  | x :: t, 0, j + 1, v, _, hj, _ => by
    simp only [List.getD_cons_succ, List.set_cons_zero, List.set_cons_succ]
    exact getD_set_perm d t j v (by simpa using hj)
  | x :: t, i + 1, 0, v, hi, _, _ => by
    simp only [List.getD_cons_zero, List.set_cons_zero, List.set_cons_succ]
    exact cons_set_swap_perm t i v x (by simpa using hi)
  | x :: t, i + 1, j + 1, v, hi, hj, hij => by
    simp only [List.getD_cons_succ, List.set_cons_succ]
    exact List.Perm.cons x
      (hole_move_perm d t i j v (by simpa using hi) (by simpa using hj) (by omega))

/-- Invariant of the siftdown loop: the final hole position is in range,
the length is unchanged, and refilling the hole with any value permutes to
refilling the original hole. -/
lemma siftdownGo_spec : ∀ (fuel startpos : Nat) (item : Node) (heap : List Node) (pos : Nat),
    pos < heap.length →
    (siftdownGo startpos item fuel heap pos).2 < (siftdownGo startpos item fuel heap pos).1.length ∧
    (siftdownGo startpos item fuel heap pos).1.length = heap.length ∧
    ∀ v, List.Perm ((siftdownGo startpos item fuel heap pos).1.set (siftdownGo startpos item fuel heap pos).2 v)
      (heap.set pos v)
  | 0, s, item, heap, pos, h => by
    refine ⟨by simpa [siftdownGo] using h, by simp [siftdownGo], fun v => by simp [siftdownGo]⟩
  | fuel + 1, s, item, heap, pos, h => by
    by_cases hs : s < pos
    · by_cases hlt : item.freq < (heap.getD ((pos - 1) / 2) dNode).freq
      · have hpp : (pos - 1) / 2 < (heap.set pos (heap.getD ((pos - 1) / 2) dNode)).length := by
          simp only [List.length_set]
          omega
        have ih := siftdownGo_spec fuel s item
          (heap.set pos (heap.getD ((pos - 1) / 2) dNode)) ((pos - 1) / 2) hpp
        have heq : siftdownGo s item (fuel + 1) heap pos
            = siftdownGo s item fuel (heap.set pos (heap.getD ((pos - 1) / 2) dNode)) ((pos - 1) / 2) := by
          simp only [siftdownGo]
          rw [if_pos hs, if_pos hlt]
        rw [heq]
        refine ⟨ih.1, by rw [ih.2.1, List.length_set], fun v => ?_⟩
        refine (ih.2.2 v).trans ?_
        exact hole_move_perm dNode heap pos ((pos - 1) / 2) v h (by omega) (by omega)
      · have heq : siftdownGo s item (fuel + 1) heap pos = (heap, pos) := by
          simp only [siftdownGo]
          rw [if_pos hs, if_neg hlt]
        rw [heq]
        exact ⟨h, rfl, fun v => List.Perm.refl _⟩
    · have heq : siftdownGo s item (fuel + 1) heap pos = (heap, pos) := by
        simp only [siftdownGo]
        rw [if_neg hs]
      rw [heq]
      exact ⟨h, rfl, fun v => List.Perm.refl _⟩

/-- siftdown permutes the heap. -/
lemma siftdown_perm (heap : List Node) (s pos : Nat) (h : pos < heap.length) :
    List.Perm (siftdown heap s pos) heap := by
  have spec := siftdownGo_spec pos s (heap.getD pos dNode) heap pos h
  have := spec.2.2 (heap.getD pos dNode)
  unfold siftdown
  exact this.trans (by rw [set_getD_self dNode heap pos h])

/-- Length is preserved by siftdown. -/
lemma siftdown_length (heap : List Node) (s pos : Nat) (h : pos < heap.length) :
    (siftdown heap s pos).length = heap.length :=
  (siftdown_perm heap s pos h).length_eq

/-- Invariant of the siftup bubble loop, parallel to siftdownGo_spec. -/
lemma siftupGo_spec : ∀ (fuel : Nat) (heap : List Node) (pos : Nat),
    pos < heap.length →
    (siftupGo fuel heap pos).2 < (siftupGo fuel heap pos).1.length ∧
    (siftupGo fuel heap pos).1.length = heap.length ∧
    ∀ v, List.Perm ((siftupGo fuel heap pos).1.set (siftupGo fuel heap pos).2 v) (heap.set pos v)
  | 0, heap, pos, h => by
    refine ⟨by simpa [siftupGo] using h, by simp [siftupGo], fun v => by simp [siftupGo]⟩
  | fuel + 1, heap, pos, h => by
    by_cases hc : 2 * pos + 1 < heap.length
    · set childpos2 :=
        if 2 * pos + 1 + 1 < heap.length ∧
            ¬ (heap.getD (2 * pos + 1) dNode).freq < (heap.getD (2 * pos + 1 + 1) dNode).freq
        then 2 * pos + 1 + 1 else 2 * pos + 1 with hc2
      have hc2lt : childpos2 < heap.length := by
        rw [hc2]; split
        · omega
        · exact hc
      have hc2ne : pos ≠ childpos2 := by
        rw [hc2]; split <;> omega
      have hpp : childpos2 < (heap.set pos (heap.getD childpos2 dNode)).length := by
        simpa using hc2lt
      have ih := siftupGo_spec fuel (heap.set pos (heap.getD childpos2 dNode)) childpos2 hpp
      have heq : siftupGo (fuel + 1) heap pos
          = siftupGo fuel (heap.set pos (heap.getD childpos2 dNode)) childpos2 := by
        rw [hc2]
        simp only [siftupGo]
        rw [if_pos hc]
      rw [heq]
      refine ⟨ih.1, by rw [ih.2.1, List.length_set], fun v => ?_⟩
      refine (ih.2.2 v).trans ?_
      exact hole_move_perm dNode heap pos childpos2 v h hc2lt hc2ne
    · have heq : siftupGo (fuel + 1) heap pos = (heap, pos) := by
        simp only [siftupGo]
        rw [if_neg hc]
      rw [heq]
      exact ⟨h, rfl, fun v => List.Perm.refl _⟩

/-- siftup permutes the heap. -/
lemma siftup_perm (heap : List Node) (pos : Nat) (h : pos < heap.length) :
    List.Perm (siftup heap pos) heap := by
  have spec := siftupGo_spec heap.length heap pos h
  have hlt : (siftupGo heap.length heap pos).2
      < ((siftupGo heap.length heap pos).1.set (siftupGo heap.length heap pos).2 (heap.getD pos dNode)).length := by
    simpa using spec.1
  unfold siftup
  refine (siftdown_perm _ pos _ hlt).trans ?_
  refine (spec.2.2 (heap.getD pos dNode)).trans ?_
  rw [set_getD_self dNode heap pos h]

/-- Length is preserved by siftup. -/
lemma siftup_length (heap : List Node) (pos : Nat) (h : pos < heap.length) :
    (siftup heap pos).length = heap.length :=
  (siftup_perm heap pos h).length_eq

/-- The heapify loop permutes the heap. -/
lemma heapifyGo_perm : ∀ (k : Nat) (heap : List Node), k ≤ heap.length →
    List.Perm (heapifyGo k heap) heap
  | 0, heap, _ => by simp [heapifyGo]
  | k + 1, heap, hk => by
    have hlt : k < heap.length := by omega
    have h1 := siftup_perm heap k hlt
    have h2 := heapifyGo_perm k (siftup heap k) (by rw [siftup_length heap k hlt]; omega)
    simpa [heapifyGo] using h2.trans h1

/-- heapify permutes its input. -/
lemma heapify_perm (heap : List Node) : List.Perm (heapify heap) heap :=
  heapifyGo_perm _ heap (Nat.div_le_self _ _)

/-- heappush permutes to consing the new item. -/
lemma heappush_perm (heap : List Node) (item : Node) :
    List.Perm (heappush heap item) (item :: heap) := by
  have h : heap.length < (heap ++ [item]).length := by simp
  refine (siftdown_perm _ 0 _ h).trans ?_
  exact List.perm_append_singleton item heap

/-- heappop returns an element and a rest that together permute to the
original heap. -/
lemma heappop_perm (heap : List Node) (r : Node) (h2 : List Node)
    (h : heappop heap = some (r, h2)) : List.Perm (r :: h2) heap := by
  match heap with
  | [] => simp [heappop] at h
  | x :: xs =>
    simp only [heappop] at h
    split at h
    next hdl =>
      simp only [Option.some.injEq, Prod.mk.injEq] at h
      have hx : (x :: xs) = [(x :: xs).getLast (List.cons_ne_nil x xs)] := by
        conv_lhs => rw [← List.dropLast_append_getLast (List.cons_ne_nil x xs)]
        rw [hdl]; simp
      rw [← h.1, ← h.2]
      conv_rhs => rw [hx]
    next y ys hdl =>
      simp only [Option.some.injEq, Prod.mk.injEq] at h
      have hlen : 0 < ((y :: ys).set 0 ((x :: xs).getLast (List.cons_ne_nil x xs))).length := by simp
      have hperm := siftup_perm _ 0 hlen
      have hx : (x :: xs) = (y :: ys) ++ [(x :: xs).getLast (List.cons_ne_nil x xs)] := by
        conv_lhs => rw [← List.dropLast_append_getLast (List.cons_ne_nil x xs)]
        rw [hdl]
      rw [← h.1, ← h.2]
      conv_rhs => rw [hx]
      refine (List.Perm.cons y hperm).trans ?_
      refine (List.Perm.swap ((x :: xs).getLast (List.cons_ne_nil x xs)) y ys).trans ?_
      exact (List.perm_append_singleton _ _).symm

/-- heappop succeeds exactly on non-empty heaps. -/
lemma heappop_eq_none_iff (heap : List Node) : heappop heap = none ↔ heap = [] := by
  match heap with
  | [] => simp [heappop]
  | x :: xs =>
    simp only [heappop]
    split <;> simp

/-- With sufficient fuel, the merge loop fails exactly on the empty heap. -/
lemma mergeLoop_none_iff : ∀ (fuel : Nat) (heap : List Node), heap.length ≤ fuel + 1 →
    (mergeLoop fuel heap = none ↔ heap = [])
  | 0, heap, hf => by
    have : heap.length ≤ 1 := hf
    simp only [mergeLoop]
    exact List.head?_eq_none_iff
  | fuel + 1, heap, hf => by
    by_cases h1 : 1 < heap.length
    · rcases hp : heappop heap with _ | ⟨l1, h1l⟩
      · rw [heappop_eq_none_iff] at hp
        rw [hp] at h1
        simp at h1
      · have hperm1 := heappop_perm heap l1 h1l hp
        have hlen1 : h1l.length + 1 = heap.length := by simpa using hperm1.length_eq
        rcases hp2 : heappop h1l with _ | ⟨l2, h2l⟩
        · rw [heappop_eq_none_iff] at hp2
          rw [hp2] at hlen1
          simp at hlen1
          omega
        · have hperm2 := heappop_perm h1l l2 h2l hp2
          have hlen2 : h2l.length + 1 = h1l.length := by simpa using hperm2.length_eq
          have heq : mergeLoop (fuel + 1) heap
              = mergeLoop fuel (heappush h2l (.internal (l1.freq + l2.freq) l1 l2)) := by
            simp only [mergeLoop]
            rw [if_pos h1]
            simp only [hp, hp2]
          have hlenp : (heappush h2l (.internal (l1.freq + l2.freq) l1 l2)).length
              = h2l.length + 1 := by
            simpa using (heappush_perm h2l (.internal (l1.freq + l2.freq) l1 l2)).length_eq
          have ih := mergeLoop_none_iff fuel (heappush h2l (.internal (l1.freq + l2.freq) l1 l2))
            (by omega)
          rw [heq, ih]
          constructor
          · intro hcontra
            rw [hcontra] at hlenp
            exact absurd hlenp.symm (by simp)
          · intro hcontra
            rw [hcontra] at h1
            simp at h1
    · have heq : mergeLoop (fuel + 1) heap = heap.head? := by
        simp only [mergeLoop]
        rw [if_neg h1]
      rw [heq]
      exact List.head?_eq_none_iff

/-- With sufficient fuel, a root produced by the merge loop carries
exactly the leaf characters of the heap it started from. -/
lemma mergeLoop_perm : ∀ (fuel : Nat) (heap : List Node) (root : Node), heap.length ≤ fuel + 1 →
    mergeLoop fuel heap = some root →
    List.Perm root.leafChars (heap.flatMap Node.leafChars)
  | 0, heap, root, hf, h => by
    match heap with
    | [] => simp [mergeLoop] at h
    | [x] =>
      simp only [mergeLoop, List.head?] at h
      rw [← Option.some_inj.mp h]
      simp
    | x :: y :: t =>
      simp only [List.length_cons] at hf
      omega
  | fuel + 1, heap, root, hf, h => by
    by_cases h1 : 1 < heap.length
    · rcases hp : heappop heap with _ | ⟨l1, h1l⟩
      · rw [heappop_eq_none_iff] at hp
        rw [hp] at h1
        simp at h1
      · have hperm1 := heappop_perm heap l1 h1l hp
        have hlen1 : h1l.length + 1 = heap.length := by simpa using hperm1.length_eq
        rcases hp2 : heappop h1l with _ | ⟨l2, h2l⟩
        · rw [heappop_eq_none_iff] at hp2
          rw [hp2] at hlen1
          simp at hlen1
          omega
        · have hperm2 := heappop_perm h1l l2 h2l hp2
          have hlen2 : h2l.length + 1 = h1l.length := by simpa using hperm2.length_eq
          have hpushperm := heappush_perm h2l (.internal (l1.freq + l2.freq) l1 l2)
          have hlenp : (heappush h2l (.internal (l1.freq + l2.freq) l1 l2)).length
              = h2l.length + 1 := by simpa using hpushperm.length_eq
          have heq : mergeLoop (fuel + 1) heap
              = mergeLoop fuel (heappush h2l (.internal (l1.freq + l2.freq) l1 l2)) := by
            simp only [mergeLoop]
            rw [if_pos h1]
            simp only [hp, hp2]
          rw [heq] at h
          have ih := mergeLoop_perm fuel _ root (by omega) h
          refine ih.trans ?_
          refine (hpushperm.flatMap_right Node.leafChars).trans ?_
          simp only [List.flatMap_cons, Node.leafChars]
          have e1 : List.Perm (l1.leafChars ++ l2.leafChars ++ h2l.flatMap Node.leafChars)
              (l1.leafChars ++ h1l.flatMap Node.leafChars) := by
            rw [List.append_assoc]
            refine List.Perm.append_left l1.leafChars ?_
            have hc : (l2 :: h2l).flatMap Node.leafChars
                = l2.leafChars ++ h2l.flatMap Node.leafChars := by
              simp [List.flatMap_cons]
            rw [← hc]
            exact hperm2.flatMap_right Node.leafChars
          have e2 : List.Perm (l1.leafChars ++ h1l.flatMap Node.leafChars)
              (heap.flatMap Node.leafChars) := by
            have hc : (l1 :: h1l).flatMap Node.leafChars
                = l1.leafChars ++ h1l.flatMap Node.leafChars := by
              simp [List.flatMap_cons]
            rw [← hc]
            exact hperm1.flatMap_right Node.leafChars
          exact e1.trans e2
    · have heq : mergeLoop (fuel + 1) heap = heap.head? := by
        simp only [mergeLoop]
        rw [if_neg h1]
      rw [heq] at h
      match heap with
      | [] => simp at h
      | [x] =>
        simp only [List.head?] at h
        rw [← Option.some_inj.mp h]
        simp
      | x :: y :: t =>
        simp only [List.length_cons] at h1
        omega

/-- The leaves created from a frequency table carry exactly its keys. -/
lemma flatMap_leafChars_map (ft : List (Char × Nat)) :
    (ft.map fun p => Node.leaf p.1 p.2).flatMap Node.leafChars = ft.map Prod.fst := by
  induction ft with
  | nil => simp
  | cons p t ih => simp [Node.leafChars, ih]

/-- build_huffman_tree returns None exactly on the empty frequency table. -/
lemma build_huffman_tree_eq_none_iff (ft : List (Char × Nat)) :
    build_huffman_tree ft = none ↔ ft = [] := by
  unfold build_huffman_tree
  have hlen : (heapify (ft.map fun p => Node.leaf p.1 p.2)).length = ft.length := by
    simpa using (heapify_perm (ft.map fun p => Node.leaf p.1 p.2)).length_eq
  rw [mergeLoop_none_iff _ _ (by omega)]
  constructor
  · intro hcontra
    have := congrArg List.length hcontra
    rw [hlen] at this
    simpa using List.length_eq_zero.mp (by simpa using this)
  · intro hcontra
    subst hcontra
    simp [heapify, heapifyGo]

/-- The tree built from a frequency table has exactly the table's keys as
its leaf characters (with multiplicity). -/
lemma build_huffman_tree_perm (ft : List (Char × Nat)) (root : Node)
    (h : build_huffman_tree ft = some root) :
    List.Perm root.leafChars (ft.map Prod.fst) := by
  unfold build_huffman_tree at h
  have hperm := mergeLoop_perm _ _ root (by omega) h
  refine hperm.trans ?_
  refine ((heapify_perm (ft.map fun p => Node.leaf p.1 p.2)).flatMap_right Node.leafChars).trans ?_
  rw [flatMap_leafChars_map]

/-- A one-entry frequency table builds the single-leaf tree. -/
lemma build_huffman_tree_single (c : Char) (n : Nat) :
    build_huffman_tree [(c, n)] = some (.leaf c n) := by
  simp [build_huffman_tree, heapify, heapifyGo, mergeLoop]

/-- Specification view of generate_codes: the (char, code) pairs of the
leaves in depth-first order, with the root-leaf special case. -/
def leafPaths : Node → List Bool → List (Char × List Bool)
  | .leaf c _, cur => [(c, if cur = [] then [false] else cur)]
  | .internal _ l r, cur => leafPaths l (cur ++ [false]) ++ leafPaths r (cur ++ [true])

/-- Folding dictInsert over a list of entries. -/
def insertAll (tbl : List (Char × List Bool)) (es : List (Char × List Bool)) : List (Char × List Bool) :=
  es.foldl (fun t p => dictInsert t p.1 p.2) tbl

/-- generate_codes is insertion of all leaf paths into the accumulator. -/
lemma generate_codes_eq_insertAll : ∀ (n : Node) (cur : List Bool) (tbl : List (Char × List Bool)),
    generate_codes n cur tbl = insertAll tbl (leafPaths n cur)
  | .leaf c f, cur, tbl => by simp [generate_codes, leafPaths, insertAll]
  | .internal f l r, cur, tbl => by
    simp only [generate_codes, leafPaths]
    rw [generate_codes_eq_insertAll l (cur ++ [false]) tbl,
      generate_codes_eq_insertAll r (cur ++ [true])]
    simp [insertAll, List.foldl_append]

/-- Every entry of a dictInsert result is an old entry or the new pair. -/
lemma mem_dictInsert (tbl : List (Char × List Bool)) (k : Char) (v : List Bool)
    (p : Char × List Bool) (h : p ∈ dictInsert tbl k v) : p ∈ tbl ∨ p = (k, v) := by
  unfold dictInsert at h
  split at h
  · rcases List.mem_map.mp h with ⟨q, hq, hqp⟩
    by_cases hk : q.1 = k
    · rw [if_pos hk] at hqp
      exact Or.inr hqp.symm
    · rw [if_neg hk] at hqp
      exact Or.inl (hqp ▸ hq)
  · rcases List.mem_append.mp h with h | h
    · exact Or.inl h
    · simp at h
      exact Or.inr h

/-- Every entry of an insertAll result is an accumulator entry or one of
the inserted pairs. -/
lemma mem_insertAll : ∀ (es tbl : List (Char × List Bool)) (p : Char × List Bool),
    p ∈ insertAll tbl es → p ∈ tbl ∨ p ∈ es
  | [], tbl, p, h => Or.inl h
  | e :: es, tbl, p, h => by
    have := mem_insertAll es (dictInsert tbl e.1 e.2) p h
    rcases this with h2 | h2
    · rcases mem_dictInsert tbl e.1 e.2 p h2 with h3 | h3
      · exact Or.inl h3
      · exact Or.inr (by simp [h3])
    · exact Or.inr (List.mem_cons_of_mem e h2)

/-- dictInsert's key set is the old key set plus the inserted key. -/
lemma keys_dictInsert (tbl : List (Char × List Bool)) (k : Char) (v : List Bool) (c : Char) :
    c ∈ (dictInsert tbl k v).map Prod.fst ↔ c ∈ tbl.map Prod.fst ∨ c = k := by
  unfold dictInsert
  split
  next hany =>
    have hkmem : k ∈ tbl.map Prod.fst := by
      rcases List.any_eq_true.mp hany with ⟨q, hq, hqk⟩
      exact List.mem_map.mpr ⟨q, hq, by simpa using hqk⟩
    have hmapkeys : (tbl.map fun p => if p.1 = k then (k, v) else p).map Prod.fst
        = tbl.map Prod.fst := by
      rw [List.map_map]
      refine List.map_congr_left fun q hq => ?_
      by_cases hk : q.1 = k
      · simp [hk]
      · simp [hk]
    rw [hmapkeys]
    constructor
    · exact Or.inl
    · rintro (h | h)
      · exact h
      · exact h ▸ hkmem
  next hany => simp [or_comm, eq_comm]

/-- insertAll's key set is the accumulator's keys plus the inserted keys. -/
lemma keys_insertAll : ∀ (es tbl : List (Char × List Bool)) (c : Char),
    c ∈ (insertAll tbl es).map Prod.fst ↔ c ∈ tbl.map Prod.fst ∨ c ∈ es.map Prod.fst
  | [], tbl, c => by simp [insertAll]
  | e :: es, tbl, c => by
    have ih := keys_insertAll es (dictInsert tbl e.1 e.2) c
    have : insertAll tbl (e :: es) = insertAll (dictInsert tbl e.1 e.2) es := rfl
    rw [this, ih, keys_dictInsert]
    simp only [List.map_cons, List.mem_cons]
    tauto

/-- A lookup succeeds exactly when the key is present. -/
lemma lookupTable_isSome_iff (tbl : List (Char × List Bool)) (c : Char) :
    (lookupTable tbl c).isSome ↔ c ∈ tbl.map Prod.fst := by
  unfold lookupTable
  simp only [Option.isSome_map', List.find?_isSome, List.mem_map, beq_iff_eq]

/-- A successful lookup returns an entry of the table. -/
lemma lookupTable_mem (tbl : List (Char × List Bool)) (c : Char) (v : List Bool)
    (h : lookupTable tbl c = some v) : (c, v) ∈ tbl := by
  unfold lookupTable at h
  rcases Option.map_eq_some'.mp h with ⟨p, hf, hv⟩
  have hp := List.find?_some hf
  have hmem := List.mem_of_find?_eq_some hf
  rcases p with ⟨p1, p2⟩
  simp only [beq_iff_eq] at hp
  simp only at hv
  rw [← hp, ← hv]
  exact hmem

/-- The keys of the leaf paths are the leaf characters. -/
lemma leafPaths_map_fst : ∀ (n : Node) (cur : List Bool),
    (leafPaths n cur).map Prod.fst = n.leafChars
  | .leaf c f, cur => by simp [leafPaths, Node.leafChars]
  | .internal f l r, cur => by
    simp [leafPaths, Node.leafChars, leafPaths_map_fst l, leafPaths_map_fst r]

/-- Codes generated below a non-empty current path all extend that path. -/
lemma leafPaths_starts : ∀ (n : Node) (cur : List Bool), cur ≠ [] →
    ∀ p ∈ leafPaths n cur, cur <+: p.2
  | .leaf c f, cur, hcur, p, hp => by
    simp only [leafPaths, List.mem_singleton] at hp
    rw [hp, if_neg hcur]
  | .internal f l r, cur, hcur, p, hp => by
    simp only [leafPaths, List.mem_append] at hp
    rcases hp with hp | hp
    · exact (List.prefix_append cur [false]).trans
        (leafPaths_starts l (cur ++ [false]) (by simp) p hp)
    · exact (List.prefix_append cur [true]).trans
        (leafPaths_starts r (cur ++ [true]) (by simp) p hp)

/-- Two bit lists extending the same path by different bits cannot be
prefixes of a common list, hence not of one another. -/
lemma no_cross (x u v : List Bool) (b1 b2 : Bool) (hne : b1 ≠ b2)
    (hu : (x ++ [b1]) <+: u) (hv : (x ++ [b2]) <+: v) : ¬ u <+: v := by
  intro huv
  have h1 : (x ++ [b1]) <+: v := hu.trans huv
  have hpre : (x ++ [b1]) <+: (x ++ [b2]) :=
    List.prefix_of_prefix_length_le h1 hv (by simp)
  have heq : x ++ [b1] = x ++ [b2] := hpre.eq_of_length (by simp)
  have := List.append_cancel_left heq
  simp at this
  exact hne this

/-- Mutual non-prefix relation between code-table entries. -/
def NoPref (p q : Char × List Bool) : Prop := ¬ p.2 <+: q.2 ∧ ¬ q.2 <+: p.2

/-- Distinct leaf paths are mutually non-prefix. -/
lemma leafPaths_pairwise : ∀ (n : Node) (cur : List Bool),
    List.Pairwise NoPref (leafPaths n cur)
  | .leaf c f, cur => by simp [leafPaths]
  | .internal f l r, cur => by
    simp only [leafPaths]
    rw [List.pairwise_append]
    refine ⟨leafPaths_pairwise l (cur ++ [false]), leafPaths_pairwise r (cur ++ [true]),
      fun a ha b hb => ?_⟩
    have hu := leafPaths_starts l (cur ++ [false]) (by simp) a ha
    have hv := leafPaths_starts r (cur ++ [true]) (by simp) b hb
    exact ⟨no_cross cur a.2 b.2 false true (by simp) hu hv,
      no_cross cur b.2 a.2 true false (by simp) hv hu⟩

/-- Appending a bit doubles the value and adds the bit. -/
lemma bitsToNat_append (c : List Bool) (b : Bool) :
    bitsToNat (c ++ [b]) = 2 * bitsToNat c + (if b then 1 else 0) := by
  unfold bitsToNat
  rw [List.foldl_append]
  rfl

/-- A bit string's value is below 2 to its length. -/
lemma bitsToNat_lt (c : List Bool) : bitsToNat c < 2 ^ c.length := by
  induction c using List.reverseRecOn with
  | nil => simp [bitsToNat]
  | append_singleton d b ih =>
    rw [bitsToNat_append]
    have hp : 2 ^ ((d ++ [b]).length) = 2 * 2 ^ d.length := by
      simp [List.length_append, pow_succ, Nat.mul_comm]
    rw [hp]
    cases b <;> simp <;> omega

/-- A zero-valued bit string is all zero bits. -/
lemma bitsToNat_eq_zero (c : List Bool) (h : bitsToNat c = 0) :
    c = List.replicate c.length false := by
  induction c using List.reverseRecOn with
  | nil => simp
  | append_singleton d b ih =>
    rw [bitsToNat_append] at h
    have hd : bitsToNat d = 0 := by cases b <;> simp at h <;> omega
    have hb : b = false := by
      cases b
      · rfl
      · simp at h
    rw [hb, ih hd]
    simp [List.replicate_succ', List.length_append]

/-- natToBinGo on argument 0. -/
lemma natToBinGo_zero (f : Nat) : natToBinGo f 0 = [false] := by cases f <;> rfl

/-- natToBinGo on argument 1. -/
lemma natToBinGo_one (f : Nat) : natToBinGo f 1 = [true] := by cases f <;> rfl

/-- natToBinGo recurrence for arguments at least 2. -/
lemma natToBinGo_succ (f n : Nat) (h : 2 ≤ n) :
    natToBinGo (f + 1) n = natToBinGo f (n / 2) ++ [n % 2 == 1] := by
  match n, h with
  | n + 2, _ => rfl

/-- Fuel at least the argument makes natToBinGo fuel-independent. -/
lemma natToBinGo_fuel : ∀ (f1 f2 n : Nat), n ≤ f1 + 1 → n ≤ f2 + 1 →
    natToBinGo f1 n = natToBinGo f2 n
  | f1, f2, 0, _, _ => by rw [natToBinGo_zero, natToBinGo_zero]
  | f1, f2, 1, _, _ => by rw [natToBinGo_one, natToBinGo_one]
  | 0, f2, n + 2, h1, _ => by omega
  | f1 + 1, 0, n + 2, _, h2 => by omega
  | f1 + 1, f2 + 1, n + 2, h1, h2 => by
    rw [natToBinGo_succ f1 (n + 2) (by omega), natToBinGo_succ f2 (n + 2) (by omega)]
    rw [natToBinGo_fuel f1 f2 ((n + 2) / 2) (by omega) (by omega)]

/-- natToBin recurrence: strip the last binary digit. -/
lemma natToBin_two_le (n : Nat) (h : 2 ≤ n) :
    natToBin n = natToBin (n / 2) ++ [n % 2 == 1] := by
  obtain ⟨m, rfl⟩ : ∃ m, n = m + 2 := ⟨n - 2, by omega⟩
  have e1 : natToBinGo (m + 2) (m + 2) = natToBinGo (m + 1) ((m + 2) / 2) ++ [(m + 2) % 2 == 1] :=
    natToBinGo_succ (m + 1) (m + 2) (by omega)
  unfold natToBin
  rw [e1, natToBinGo_fuel (m + 1) ((m + 2) / 2) ((m + 2) / 2) (by omega) (by omega)]

/-- Binary digit count is bounded by any exponent dominating the value. -/
lemma natToBin_length_le : ∀ (k n : Nat), n < 2 ^ k → 1 ≤ k → (natToBin n).length ≤ k
  | k, 0, _, hk => by simpa [natToBin, natToBinGo_zero] using hk
  | k, 1, _, hk => by simpa [natToBin, natToBinGo_one] using hk
  | 0, n + 2, hn, hk => by omega
  | k + 1, n + 2, hn, _ => by
    rw [natToBin_two_le (n + 2) (by omega), List.length_append]
    have hdiv : (n + 2) / 2 < 2 ^ k := by
      rw [pow_succ] at hn
      omega
    have h1 : 1 ≤ (n + 2) / 2 := by omega
    have hk1 : 1 ≤ k := by
      by_contra hc
      have hk0 : k = 0 := by omega
      rw [hk0, pow_zero] at hdiv
      omega
    have := natToBin_length_le k ((n + 2) / 2) hdiv hk1
    simp only [List.length_cons, List.length_nil]
    omega

/-- Left-padding the binary digits of a bit string's value with zeros back
to the original length recovers the bit string. -/
lemma natToBin_bitsToNat : ∀ (c : List Bool), c ≠ [] →
    List.replicate (c.length - (natToBin (bitsToNat c)).length) false ++ natToBin (bitsToNat c) = c := by
  intro c
  induction c using List.reverseRecOn with
  | nil => intro h; exact absurd rfl h
  | append_singleton d b ih =>
    intro _
    by_cases hdne : d = []
    · subst hdne
      cases b <;> simp [bitsToNat, natToBin, natToBinGo_zero, natToBinGo_one]
    · have hL : 1 ≤ d.length := List.length_pos.mpr hdne
      have hlen : (d ++ [b]).length = d.length + 1 := by simp
      by_cases hv : bitsToNat d = 0
      · have hrep := bitsToNat_eq_zero d hv
        have hnb : natToBin (bitsToNat (d ++ [b])) = [b] := by
          rw [bitsToNat_append, hv]
          cases b
          · simp [natToBin, natToBinGo_zero]
          · simp [natToBin, natToBinGo_one]
        rw [hnb, hlen]
        simp only [List.length_singleton, Nat.add_sub_cancel]
        have hrep2 : List.replicate d.length false = d := by
          conv_rhs => rw [hrep]
        exact congrArg (fun t => t ++ [b]) hrep2
      · have hn2 : 2 ≤ bitsToNat (d ++ [b]) := by
          rw [bitsToNat_append]
          cases b <;> simp <;> omega
        have hdiv : bitsToNat (d ++ [b]) / 2 = bitsToNat d := by
          rw [bitsToNat_append]
          cases b <;> simp <;> omega
        have hmod : (bitsToNat (d ++ [b]) % 2 == 1) = b := by
          rw [bitsToNat_append]
          cases b <;> simp [Nat.mul_add_mod]
        have hrec := natToBin_two_le (bitsToNat (d ++ [b])) hn2
        rw [hrec, hdiv, hmod]
        have hLv : (natToBin (bitsToNat d)).length ≤ d.length :=
          natToBin_length_le d.length (bitsToNat d) (bitsToNat_lt d) hL
        have harith : (d ++ [b]).length - (natToBin (bitsToNat d) ++ [b]).length
            = d.length - (natToBin (bitsToNat d)).length := by
          simp only [List.length_append, List.length_singleton]
          omega
        rw [harith, ← List.append_assoc]
        exact congrArg (fun t => t ++ [b]) (ih hdne)

/-- Expanding the byte value of an 8-bit chunk gives back the chunk. -/
lemma byteToBits_bitsToNat (c : List Bool) (h : c.length = 8) :
    byteToBits (bitsToNat c) = c := by
  have hne : c ≠ [] := by
    intro hc
    rw [hc] at h
    simp at h
  unfold byteToBits
  rw [← h]
  exact natToBin_bitsToNat c hne

/-- A real byte value expands to exactly 8 bits. -/
lemma byteToBits_length (b : Nat) (h : b < 256) : (byteToBits b).length = 8 := by
  have hle : (natToBin b).length ≤ 8 := natToBin_length_le 8 b (by omega) (by omega)
  unfold byteToBits
  simp only [List.length_append, List.length_replicate]
  omega

/-- get_byte_array_go on the empty bit string. -/
lemma get_byte_array_go_nil (f : Nat) : get_byte_array_go f [] = [] := by cases f <;> rfl

/-- Fuel at least the length makes get_byte_array_go fuel-independent. -/
lemma get_byte_array_go_fuel : ∀ (f1 f2 : Nat) (bs : List Bool),
    bs.length ≤ f1 → bs.length ≤ f2 → get_byte_array_go f1 bs = get_byte_array_go f2 bs
  | f1, f2, [], _, _ => by rw [get_byte_array_go_nil, get_byte_array_go_nil]
  | 0, f2, b :: bs, h1, _ => by simp at h1
  | f1 + 1, 0, b :: bs, _, h2 => by simp at h2
  | f1 + 1, f2 + 1, b :: bs, h1, h2 => by
    show bitsToNat ((b :: bs).take 8) :: get_byte_array_go f1 ((b :: bs).drop 8)
      = bitsToNat ((b :: bs).take 8) :: get_byte_array_go f2 ((b :: bs).drop 8)
    rw [get_byte_array_go_fuel f1 f2 ((b :: bs).drop 8)
      (by simp only [List.length_drop] at *; omega)
      (by simp only [List.length_drop] at *; omega)]

/-- get_byte_array recurrence: one 8-bit chunk at a time. -/
lemma get_byte_array_cons (b : Bool) (bs : List Bool) :
    get_byte_array (b :: bs) = bitsToNat ((b :: bs).take 8) :: get_byte_array ((b :: bs).drop 8) := by
  show get_byte_array_go (bs.length + 1) (b :: bs) = _
  show bitsToNat ((b :: bs).take 8) :: get_byte_array_go bs.length ((b :: bs).drop 8) = _
  rw [get_byte_array_go_fuel bs.length ((b :: bs).drop 8).length ((b :: bs).drop 8)
    (by simp only [List.length_drop, List.length_cons]; omega) (Nat.le_refl _)]
  rfl

/-- Re-expanding the packed bytes of a byte-aligned bit string gives the
bit string back. -/
lemma bits_of_bytes_get_byte_array : ∀ (bs : List Bool), bs.length % 8 = 0 →
    bits_of_bytes (get_byte_array bs) = bs
  | [], _ => rfl
  | b :: bs, h => by
    have hlen : 8 ≤ (b :: bs).length := by
      simp only [List.length_cons] at h ⊢
      omega
    have htake : ((b :: bs).take 8).length = 8 := by
      simp only [List.length_take]
      omega
    have hdroplen : ((b :: bs).drop 8).length % 8 = 0 := by
      simp only [List.length_drop, List.length_cons] at *
      omega
    rw [get_byte_array_cons]
    show byteToBits (bitsToNat ((b :: bs).take 8)) ++ bits_of_bytes (get_byte_array ((b :: bs).drop 8))
      = b :: bs
    rw [byteToBits_bitsToNat _ htake,
      bits_of_bytes_get_byte_array ((b :: bs).drop 8) hdroplen,
      List.take_append_drop]
termination_by bs => bs.length
decreasing_by
  simp only [List.length_drop, List.length_cons]
  omega

/-- The padded bit string is byte-aligned. -/
lemma pad_length_mod (e : List Bool) : (pad_encoded_text e).1.length % 8 = 0 := by
  unfold pad_encoded_text
  simp only [List.length_append, List.length_replicate]
  split <;> omega

/-- The recorded padding count is at most 7. -/
lemma pad_snd_le (e : List Bool) : (pad_encoded_text e).2 ≤ 7 := by
  unfold pad_encoded_text
  simp only
  split <;> omega

/-- Shape of the padded bit string. -/
lemma pad_fst_eq (e : List Bool) :
    (pad_encoded_text e).1 = e ++ List.replicate (pad_encoded_text e).2 false := rfl

/-- Bit-packer round trip: padding, packing into bytes, re-expanding and
removing the recorded padding recovers the original bit sequence. -/
lemma packer_roundtrip (b : List Bool) :
    remove_padding (bits_of_bytes (get_byte_array (pad_encoded_text b).1)) (pad_encoded_text b).2 = b := by
  rw [bits_of_bytes_get_byte_array _ (pad_length_mod b), pad_fst_eq]
  unfold remove_padding
  by_cases hk : 0 < (pad_encoded_text b).2
  · rw [if_pos hk]
    have harith : (b ++ List.replicate (pad_encoded_text b).2 false).length - (pad_encoded_text b).2
        = b.length := by
      simp only [List.length_append, List.length_replicate]
      omega
    rw [harith]
    exact List.take_left' rfl
  · rw [if_neg hk]
    have h0 : (pad_encoded_text b).2 = 0 := by omega
    rw [h0]
    simp

/-- Counting one more occurrence of the sole key bumps its count. -/
lemma counterAdd_single (c : Char) (k : Nat) : counterAdd [(c, k)] c = [(c, k + 1)] := by
  unfold counterAdd
  rw [if_pos (by simp)]
  simp

/-- Folding the counter over a run of one character accumulates its count. -/
lemma foldl_counterAdd_replicate : ∀ (m : Nat) (c : Char) (k : Nat),
    List.foldl counterAdd [(c, k)] (List.replicate m c) = [(c, k + m)]
  | 0, c, k => by simp
  | m + 1, c, k => by
    rw [List.replicate_succ]
    simp only [List.foldl_cons]
    rw [counterAdd_single, foldl_counterAdd_replicate m c (k + 1)]
    have : k + 1 + m = k + (m + 1) := by omega
    rw [this]

/-- The frequency table of a non-empty single-character run. -/
lemma build_frequency_table_replicate (c : Char) (n : Nat) (h : 1 ≤ n) :
    build_frequency_table (List.replicate n c) = [(c, n)] := by
  obtain ⟨m, rfl⟩ : ∃ m, n = m + 1 := ⟨n - 1, by omega⟩
  unfold build_frequency_table
  rw [List.replicate_succ]
  simp only [List.foldl_cons]
  have h1 : counterAdd [] c = [(c, 1)] := by
    unfold counterAdd
    simp
  rw [h1, foldl_counterAdd_replicate m c 1]
  have : 1 + m = m + 1 := by omega
  rw [this]

/-- The code table of the single-leaf tree: the one symbol gets code "0". -/
lemma generate_codes_leaf (c : Char) (n : Nat) :
    generate_codes_top (some (.leaf c n)) = [(c, [false])] := by
  simp [generate_codes_top, generate_codes, dictInsert]

/-- Lookup in a one-entry table. -/
lemma lookupTable_single (c : Char) (v : List Bool) : lookupTable [(c, v)] c = some v := by
  simp [lookupTable, List.find?]

/-- encode_text unfolding on a cons. -/
lemma encode_text_cons (c : Char) (cs : List Char) (tbl : List (Char × List Bool)) :
    encode_text (c :: cs) tbl =
      match lookupTable tbl c, encode_text cs tbl with
      | some v, some rest => some (v ++ rest)
      | _, _ => none := rfl

/-- Encoding a run of one character under its "0" code gives a run of zero
bits of the same length. -/
lemma encode_text_replicate_single (c : Char) : ∀ (n : Nat),
    encode_text (List.replicate n c) [(c, [false])] = some (List.replicate n false)
  | 0 => rfl
  | n + 1 => by
    rw [List.replicate_succ, encode_text_cons, lookupTable_single,
      encode_text_replicate_single c n]
    simp [List.replicate_succ]

/-- Padding removal on the empty bit string. -/
lemma remove_padding_nil (p : Nat) : remove_padding [] p = [] := by
  unfold remove_padding
  split <;> simp

/-- The walk on an empty bit string emits nothing. -/
lemma tree_walk_nil (root cur : Node) : tree_walk root [] cur = some [] := rfl

/-- decompress_file on a container with a non-empty payload, as the
tree-match over the unpacked bit string. -/
lemma decompress_file_eq (cont : Container) (h : cont.payload ≠ []) :
    decompress_file cont =
      match build_huffman_tree cont.freq with
      | none =>
        if remove_padding (bits_of_bytes cont.payload) cont.padding = []
        then DecompressResult.ok [] else DecompressResult.pyError
      | some root =>
        match tree_walk root (remove_padding (bits_of_bytes cont.payload) cont.padding) root with
        | some txt => DecompressResult.ok txt
        | none => DecompressResult.pyError := by
  unfold decompress_file
  rw [if_neg h]

/-- compress_file on a non-empty text, as the match over the encoding. -/
lemma compress_file_eq (t : List Char) (h : t ≠ []) :
    compress_file t =
      match encode_text t (generate_codes_top (build_huffman_tree (build_frequency_table t))) with
      | none => CompressResult.pyError
      | some encoded_text =>
        CompressResult.ok
          ⟨build_frequency_table t, (pad_encoded_text encoded_text).2,
            get_byte_array (pad_encoded_text encoded_text).1⟩ := by
  unfold compress_file
  rw [if_neg h]

/-- Real byte payloads expand to 8 bits per byte. -/
lemma bits_of_bytes_length (payload : List Nat) (h : ∀ x ∈ payload, x < 256) :
    (bits_of_bytes payload).length = 8 * payload.length := by
  induction payload with
  | nil => simp [bits_of_bytes]
  | cons x xs ih =>
    simp only [bits_of_bytes, List.flatMap_cons, List.length_append, List.length_cons]
    rw [byteToBits_length x (h x (by simp))]
    have := ih fun y hy => h y (by simp [hy])
    simp only [bits_of_bytes] at this
    rw [this]
    ring

/-- C1: the round-trip property fails on the code. Compressing the valid
non-empty text "aaa" yields the container with frequency table a maps to 3,
padding 5 and the single payload byte 0, but decompressing that very
container raises (the walk steps into the absent child of the single-leaf
tree and dereferences None), so no recovered text is ever produced — the
code crashes instead of returning "aaa". -/
theorem roundtrip_crash_on_single_symbol_text :
    compress_file ['a', 'a', 'a'] = CompressResult.ok ⟨[('a', 3)], 5, [0]⟩ ∧
    decompress_file ⟨[('a', 3)], 5, [0]⟩ = DecompressResult.pyError := by
  constructor
  · decide
  · decide

/-- C2: corruption from truncating the payload by one byte is not detected.
Compressing "ababababab" yields a valid container with payload bytes
170, 128 which decompresses back to the full text, but decompressing the
container with its payload truncated by one byte succeeds with the silently
partial text "ab" — no CorruptPayload error of any kind is raised. -/
theorem truncation_silently_decoded :
    compress_file ['a', 'b', 'a', 'b', 'a', 'b', 'a', 'b', 'a', 'b']
      = CompressResult.ok ⟨[('a', 5), ('b', 5)], 6, [170, 128]⟩ ∧
    decompress_file ⟨[('a', 5), ('b', 5)], 6, [170, 128]⟩
      = DecompressResult.ok ['a', 'b', 'a', 'b', 'a', 'b', 'a', 'b', 'a', 'b'] ∧
    decompress_file ⟨[('a', 5), ('b', 5)], 6, [170]⟩ = DecompressResult.ok ['a', 'b'] := by
  refine ⟨by decide, by decide, by decide⟩

/-- C3: for a non-empty run of a single symbol, the generated code table
assigns that symbol exactly the code "0", and the compressed payload bytes,
after removing the recorded padding bits, form a run of zero bits whose
length is the length of the text. -/
theorem single_symbol_code_and_payload (c : Char) (n : Nat) (hn : 1 ≤ n) :
    lookupTable (generate_codes_top (build_huffman_tree
        (build_frequency_table (List.replicate n c)))) c = some [false] ∧
    ∃ cont, compress_file (List.replicate n c) = CompressResult.ok cont ∧
      remove_padding (bits_of_bytes cont.payload) cont.padding = List.replicate n false := by
  have hft := build_frequency_table_replicate c n hn
  have ht : List.replicate n c ≠ [] := by
    intro h0
    have := congrArg List.length h0
    simp at this
    omega
  constructor
  · rw [hft, build_huffman_tree_single, generate_codes_leaf, lookupTable_single]
  · refine ⟨⟨[(c, n)], (pad_encoded_text (List.replicate n false)).2,
      get_byte_array (pad_encoded_text (List.replicate n false)).1⟩, ?_, ?_⟩
    · rw [compress_file_eq _ ht, hft, build_huffman_tree_single, generate_codes_leaf,
        encode_text_replicate_single]
    · exact packer_roundtrip (List.replicate n false)

/-- C3 witness: the theorem at the concrete input "aaa". -/
theorem single_symbol_code_and_payload_witness :
    lookupTable (generate_codes_top (build_huffman_tree
        (build_frequency_table (List.replicate 3 'a')))) 'a' = some [false] ∧
    ∃ cont, compress_file (List.replicate 3 'a') = CompressResult.ok cont ∧
      remove_padding (bits_of_bytes cont.payload) cont.padding = List.replicate 3 false :=
  single_symbol_code_and_payload 'a' 3 (by omega)

/-- C4: the bit packer inverts: padding a bit sequence to a byte boundary,
packing into most-significant-bit-first bytes, re-expanding every byte to 8
bits and removing the recorded padding bits recovers the sequence exactly,
and the returned padding count lies in the range 0 to 7. -/
theorem bitpacker_decode_encode_id (b : List Bool) :
    remove_padding (bits_of_bytes (get_byte_array (pad_encoded_text b).1))
        (pad_encoded_text b).2 = b ∧
    (pad_encoded_text b).2 ≤ 7 :=
  ⟨packer_roundtrip b, pad_snd_le b⟩

/-- C5: the padding count of any encoding is in the range 0 to 7, makes the
padded length a multiple of 8, and equals (8 - length mod 8) mod 8. -/
theorem padding_bound_and_formula (e : List Bool) :
    (pad_encoded_text e).2 ≤ 7 ∧
    (e.length + (pad_encoded_text e).2) % 8 = 0 ∧
    (pad_encoded_text e).2 = (8 - e.length % 8) % 8 := by
  unfold pad_encoded_text
  simp only
  split <;> omega

/-- C6: the code table generated from the Huffman tree of any non-empty
frequency map is prefix-free (no symbol's code is a proper prefix of
another symbol's code) and its key set is exactly the set of symbols of the
frequency map. -/
theorem code_table_prefix_free_and_covers (ft : List (Char × Nat)) (hft : ft ≠ []) :
    (∀ c1 c2 v1 v2, c1 ≠ c2 →
        lookupTable (generate_codes_top (build_huffman_tree ft)) c1 = some v1 →
        lookupTable (generate_codes_top (build_huffman_tree ft)) c2 = some v2 →
        ¬(v1 <+: v2 ∧ v1 ≠ v2)) ∧
    (∀ c, (lookupTable (generate_codes_top (build_huffman_tree ft)) c).isSome
        ↔ c ∈ ft.map Prod.fst) := by
  rcases hb : build_huffman_tree ft with _ | root
  · exact absurd ((build_huffman_tree_eq_none_iff ft).mp hb) hft
  have htbl : generate_codes_top (some root) = insertAll [] (leafPaths root []) := by
    simp [generate_codes_top, generate_codes_eq_insertAll]
  rw [htbl]
  constructor
  · rintro c1 c2 v1 v2 hne h1 h2 ⟨hpre, hvne⟩
    have m1 : (c1, v1) ∈ leafPaths root [] := by
      rcases mem_insertAll _ _ _ (lookupTable_mem _ _ _ h1) with hmem | hmem
      · simp at hmem
      · exact hmem
    have m2 : (c2, v2) ∈ leafPaths root [] := by
      rcases mem_insertAll _ _ _ (lookupTable_mem _ _ _ h2) with hmem | hmem
      · simp at hmem
      · exact hmem
    have hsym : Symmetric NoPref := fun a b hab => ⟨hab.2, hab.1⟩
    have hR : NoPref (c1, v1) (c2, v2) :=
      (leafPaths_pairwise root []).forall hsym m1 m2
        (fun heq => hne (congrArg Prod.fst heq))
    exact hR.1 hpre
  · intro c
    rw [lookupTable_isSome_iff, keys_insertAll]
    simp only [List.map_nil, List.not_mem_nil, false_or]
    rw [leafPaths_map_fst]
    exact (build_huffman_tree_perm ft root hb).mem_iff

/-- C6 witness: the theorem at the concrete two-symbol frequency map. -/
theorem code_table_prefix_free_and_covers_witness :
    (∀ c1 c2 v1 v2, c1 ≠ c2 →
        lookupTable (generate_codes_top (build_huffman_tree [('a', 1), ('b', 1)])) c1 = some v1 →
        lookupTable (generate_codes_top (build_huffman_tree [('a', 1), ('b', 1)])) c2 = some v2 →
        ¬(v1 <+: v2 ∧ v1 ≠ v2)) ∧
    (∀ c, (lookupTable (generate_codes_top (build_huffman_tree [('a', 1), ('b', 1)])) c).isSome
        ↔ c ∈ ([(('a' : Char), (1 : Nat)), ('b', 1)]).map Prod.fst) :=
  code_table_prefix_free_and_covers [('a', 1), ('b', 1)] (by decide)

/-- C7: compressing the empty text signals the empty-input warning and
produces no container: the compression pipeline's output branch is never
reached. -/
theorem empty_input_rejected :
    compress_file [] = CompressResult.emptyInputWarning ∧
    ∀ cont, compress_file [] ≠ CompressResult.ok cont := by
  constructor
  · rfl
  · intro cont h
    simp [compress_file] at h

/-- C8: a container whose header frequency map holds exactly one symbol and
whose bit string is non-empty after padding removal rebuilds to a
single-leaf tree, and the walk's first step reads an absent child of that
leaf: decompress_file raises instead of returning any recovered text. -/
theorem single_leaf_walk_fails (cont : Container) (c : Char) (n : Nat)
    (hfreq : cont.freq = [(c, n)])
    (hbits : remove_padding (bits_of_bytes cont.payload) cont.padding ≠ []) :
    build_huffman_tree cont.freq = some (Node.leaf c n) ∧
    decompress_file cont = DecompressResult.pyError := by
  have hbuild : build_huffman_tree cont.freq = some (Node.leaf c n) := by
    rw [hfreq]
    exact build_huffman_tree_single c n
  refine ⟨hbuild, ?_⟩
  have hpl : cont.payload ≠ [] := by
    intro h0
    apply hbits
    rw [h0]
    exact remove_padding_nil cont.padding
  rw [decompress_file_eq cont hpl, hbuild]
  rcases hbs : remove_padding (bits_of_bytes cont.payload) cont.padding with _ | ⟨b, bs⟩
  · exact absurd hbs hbits
  · rfl

/-- C8 witness: the theorem at a concrete single-symbol container. -/
theorem single_leaf_walk_fails_witness :
    build_huffman_tree (Container.mk [('a', 3)] 5 [0]).freq = some (Node.leaf 'a' 3) ∧
    decompress_file ⟨[('a', 3)], 5, [0]⟩ = DecompressResult.pyError :=
  single_leaf_walk_fails ⟨[('a', 3)], 5, [0]⟩ 'a' 3 rfl (by decide)

/-- C9 counterexample: the claim quantifies over every container whose
declared padding is at least 8 times the payload byte count, which includes
the empty-payload container; there the code reports the empty-file warning
and writes nothing, rather than completing successfully with an empty
recovered text. -/
theorem padding_claim_empty_payload_cex :
    8 * (Container.mk [('a', 1)] 9 []).payload.length ≤ (Container.mk [('a', 1)] 9 []).padding ∧
    decompress_file ⟨[('a', 1)], 9, []⟩ = DecompressResult.emptyPayloadWarning ∧
    decompress_file ⟨[('a', 1)], 9, []⟩ ≠ DecompressResult.ok [] := by
  refine ⟨by decide, by decide, by decide⟩

/-- C9 (amended): for every container with a non-empty byte payload whose
header padding value is at least the payload's total bit length, the header
padding is used unvalidated: the bit string after padding removal is empty
and decompression completes successfully, writing an empty recovered text
with no error reported. -/
theorem oversized_padding_decodes_empty (cont : Container)
    (hpl : cont.payload ≠ []) (hbytes : ∀ x ∈ cont.payload, x < 256)
    (hpad : 8 * cont.payload.length ≤ cont.padding) :
    remove_padding (bits_of_bytes cont.payload) cont.padding = [] ∧
    decompress_file cont = DecompressResult.ok [] := by
  have hlen : (bits_of_bytes cont.payload).length = 8 * cont.payload.length :=
    bits_of_bytes_length cont.payload hbytes
  have hpad0 : 0 < cont.padding := by
    have : 0 < cont.payload.length := List.length_pos.mpr hpl
    omega
  have hempty : remove_padding (bits_of_bytes cont.payload) cont.padding = [] := by
    unfold remove_padding
    rw [if_pos hpad0]
    have hz : (bits_of_bytes cont.payload).length - cont.padding = 0 := by omega
    rw [hz]
    simp
  refine ⟨hempty, ?_⟩
  rw [decompress_file_eq cont hpl]
  rcases hb : build_huffman_tree cont.freq with _ | root
  · rw [hempty]
    simp
  · rw [hempty]
    rfl

/-- C9 witness: the amended theorem at a concrete container. -/
theorem oversized_padding_decodes_empty_witness :
    remove_padding (bits_of_bytes (Container.mk [('a', 1)] 8 [0]).payload)
        (Container.mk [('a', 1)] 8 [0]).padding = [] ∧
    decompress_file ⟨[('a', 1)], 8, [0]⟩ = DecompressResult.ok [] :=
  oversized_padding_decodes_empty ⟨[('a', 1)], 8, [0]⟩ (by decide) (by decide) (by decide)

/-- C10: compression is deterministic: two runs on equal input texts
produce identical containers (and hence identical serialized bytes); the
embedding fixes the first-occurrence dict iteration order and the heap's
tie handling, so the whole pipeline is a function of the text alone. -/
theorem compression_deterministic (t1 t2 : List Char) (h : t1 = t2) :
    compress_file t1 = compress_file t2 := by rw [h]

/-- C10 witness: the theorem at the concrete text "aaabbc". -/
theorem compression_deterministic_witness :
    compress_file ['a', 'a', 'a', 'b', 'b', 'c'] = compress_file ['a', 'a', 'a', 'b', 'b', 'c'] :=
  compression_deterministic _ _ rfl

end Huffman
